import Mathlib

/-!
Shallow embedding of `bughub.py`: a batch tool that pulls issues from the
GitHub and Bugzilla REST APIs, normalizes each issue into a fixed ten-field
record, and writes the records as CSV.  Raw API payloads are modelled as a
JSON value type; Python dictionary access, truthiness and `in` tests are
modelled as explicit (fallible) operations, so that the places where the
script would raise (KeyError, TypeError, ValueError) are visible as
`Except.error` results.
-/

namespace Bughub

/-- JSON values, the shape of raw issue/bug objects returned by either API. -/
inductive Json where
  | null
  | b (b : Bool)
  | i (n : Int)
  | s (s : String)
  | arr (xs : List Json)
  | obj (kvs : List (String × Json))

/-- First-match association-list lookup, the behaviour of a Python dict
whose keys are unique. -/
def alookupJ : List (String × Json) → String → Option Json
  | [], _ => none
  | p :: ps, k => if p.1 = k then some p.2 else alookupJ ps k

/-- Python `d[k]` subscription: KeyError when the key is absent, TypeError
when the value is not a dict at all. -/
def pyGet : Json → String → Except String Json
  | .obj kvs, k =>
    match alookupJ kvs k with
    | some v => .ok v
    | none => .error ("KeyError: " ++ k)
  | _, k => .error ("TypeError: not subscriptable: " ++ k)

/-- Python truthiness of a JSON value (`None`, `0`, `""`, `[]`, `{}` are
falsy). -/
def truthy : Json → Bool
  | .null => false
  | .b v => v
  | .i n => n != 0
  | .s t => t != ""
  | .arr xs => !xs.isEmpty
  | .obj kvs => !kvs.isEmpty

/-- Python `j == some_string`: true exactly for the equal string value
(values of any other type compare unequal, never raising). -/
def jeqStr : Json → String → Bool
  | .s t, k => t == k
  | _, _ => false

/-- Python iteration over a value that must be a JSON array (`for i in v`);
the script only ever iterates API-supplied lists. -/
def asArr : Json → Except String (List Json)
  | .arr xs => .ok xs
  | _ => .error "TypeError: not iterable"

/-- A normalized issue record: the dictionary yielded by `get_all`,
key/value pairs in the order the Python dict literal lists them. -/
abbrev Record := List (String × Json)

/-- `issue["assignee"]["login"] if issue["assignee"] else "nobody"`. -/
def asgLogin (asg : Json) : Except String Json :=
  if truthy asg then pyGet asg "login" else .ok (.s "nobody")

/-- `Github.is_enhancement` consuming the generator
`(i["name"] == "task" for i in issue["labels"])`: it draws booleans until
the first truthy one (returning `"y"`), and returns `"n"` on exhaustion.
The generator's element accesses are lazy, so an element after the first
match is never touched. -/
def is_enhancement : List Json → Except String String
  | [] => .ok "n"
  | l :: ls =>
    match pyGet l "name" with
    | .error e => .error e
    | .ok n => if jeqStr n "task" then .ok "y" else is_enhancement ls

/-- The record `Github.get_all` yields for one raw issue, with the same
field-access order as the Python dict literal (lines 60-71). -/
def githubNormalize (repo : String) (issue : Json) : Except String Record := do
  let num ← pyGet issue "number"
  let urlv ← pyGet issue "html_url"
  let asg ← pyGet issue "assignee"
  let asgv ← asgLogin asg
  let st ← pyGet issue "state"
  let tt ← pyGet issue "title"
  let prJ ← pyGet issue "pull_request"
  let prU ← pyGet prJ "html_url"
  let lsJ ← pyGet issue "labels"
  let ls ← asArr lsJ
  let fv ← is_enhancement ls
  .ok [("source", Json.s "github"), ("id", num), ("url", urlv),
       ("assigned", asgv), ("status", st), ("title", tt),
       ("product", Json.s repo), ("module", Json.s repo),
       ("patch", Json.s (if truthy prU then "y" else "n")),
       ("feature", Json.s fv)]

/-! ## Bugzilla source: normalization (`Bugzilla.get_all`) -/

/-- Python `s.split(sep)` for a single-character separator: always yields
at least one (possibly empty) chunk, and one extra chunk per separator. -/
def splitChars (sep : Char) : List Char → List (List Char)
  | [] => [[]]
  | c :: cs =>
    match splitChars sep cs with
    | [] => [[]]
    | chunk :: rest =>
      if c = sep then [] :: chunk :: rest else (c :: chunk) :: rest

/-- The whitespace set stripped by Python `str.strip()`. -/
def isWs (c : Char) : Bool :=
  c == ' ' || c == '\t' || c == '\n' || c == '\r' || c == '\x0b' || c == '\x0c'

/-- Python `s.strip()`: drop whitespace from both ends. -/
def pystrip (l : List Char) : List Char :=
  ((l.dropWhile isWs).reverse.dropWhile isWs).reverse

/-- Python `s.strip(chars)`: drop the given characters from both ends. -/
def stripSet (bad : List Char) (l : List Char) : List Char :=
  ((l.dropWhile bad.contains).reverse.dropWhile bad.contains).reverse

/-! ## Github pagination (`Github.get_issues`, lines 88-99) -/

/-- One HTTP response in a mocked fetch sequence: the parsed JSON array
body and the optional `Link` header. -/
structure GhResponse where
  bodies : List Json
  linkHeader : Option (List Char)

/-- The comma-part processing of the `Link` header expression: each part is
stripped, split on `";"`, each piece stripped and the two pieces reversed
into a (relation, url) dict item.  `dict(...)` raises ValueError when a
part does not give exactly two pieces. -/
def linkPairs (h : List Char) : Except String (List (List Char × List Char)) :=
  (splitChars ',' h).mapM (fun l =>
    match (splitChars ';' (pystrip l)).map pystrip with
    | [a, b] => .ok (b, a)
    | _ => .error "ValueError: dictionary update sequence")

/-- Lookup in a Python dict built from a pair sequence: later duplicate
keys overwrite earlier ones, so the last matching pair wins. -/
def lookupLast (ps : List (List Char × List Char)) (k : List Char) : Option (List Char) :=
  ps.foldl (fun acc p => if p.1 = k then some p.2 else acc) none

/-- The dict key the script looks up: the literal `rel="next"`. -/
def relNextKey : List Char := "rel=\"next\"".data

/-- The full next-URL expression of lines 96-99:
`dict(...).get('rel="next"', "").strip("<>")` applied to
`response.headers.get("Link", ";")`. -/
def parseNextHeader (h : Option (List Char)) : Except String (List Char) :=
  match linkPairs (h.getD [';']) with
  | .error e => .error e
  | .ok ps => .ok (stripSet ['<', '>'] ((lookupLast ps relNextKey).getD []))

/-- The `while url:` fetch loop of `Github.get_issues`: fetch the current
page, yield its issues, then follow the parsed next-URL; an empty URL ends
the loop.  `fuel` bounds the number of page fetches so the loop is total;
the pagination theorems supply enough fuel for their response chains. -/
def getIssuesLoop (fetch : List Char → Option GhResponse) :
    Nat → List Char → Except String (List Json)
  | 0, url => if url = [] then .ok [] else .error "fuel exhausted"
  | fuel + 1, url =>
    if url = [] then .ok []
    else
      match fetch url with
      | none => .error "URLError"
      | some r =>
        match parseNextHeader r.linkHeader with
        | .error e => .error e
        | .ok nxt =>
          match getIssuesLoop fetch fuel nxt with
          | .error e => .error e
          | .ok rest => .ok (r.bodies ++ rest)

/-! ## Source-definition parsing (`parse_source`, lines 175-189) -/

/-- A configured source instance: the positional constructor arguments and
the accumulated keyword filters of the selected variant. -/
inductive Src where
  | github (user repo : String) (filters : List (String × List String))
  | bugzilla (filters : List (String × List String))

/-- `kwargs[key].append(val)` on a `defaultdict(list)`: append to the
existing entry for the key, or start a fresh singleton entry. -/
def appendKw (kw : List (String × List String)) (k v : String) :
    List (String × List String) :=
  if kw.any (fun p => p.1 == k)
  then kw.map (fun p => if p.1 == k then (p.1, p.2 ++ [v]) else p)
  else kw ++ [(k, [v])]

/-- Python `s.split(":")` lifted back to `String` chunks. -/
def pysplitStr (s : String) (sep : Char) : List String :=
  (splitChars sep s.data).map (fun l => String.mk l)

/-- The body of the `for bit in bits` loop: a segment containing `=` is
unpacked by `key, val = bit.split("=")` (ValueError unless the split gives
exactly two pieces) and appended to the filters; any other segment is a
positional argument. -/
def parseBit (acc : List String × List (String × List String)) (bit : String) :
    Except String (List String × List (String × List String)) :=
  if bit.data.contains '=' then
    match splitChars '=' bit.data with
    | [k, v] => .ok (acc.1, appendKw acc.2 (String.mk k) (String.mk v))
    | _ => .error "ValueError: too many values to unpack"
  else .ok (acc.1 ++ [bit], acc.2)

/-- `parse_source`: split the definition on `":"`, select the source class
by the leading segment (`bits.pop(0)`; the split is never empty, so the
`headD` default is dead code), raise KeyError on an unknown type, fold the
remaining segments into positional args and keyword filters, and apply the
chosen constructor.  `source_class(*args, **kwargs)` raises TypeError when
the positional count does not fit, and also when a keyword collides with a
parameter the call already binds: `self` for either constructor (the
instance fills it), and `user`/`repo` for `Github` (the two positionals
fill them). -/
def parse_source (d : String) : Except String Src := do
  let bits := pysplitStr d ':'
  let ty := bits.headD ""
  let rest := bits.tail
  let isGh ←
    (if ty = "github" then Except.ok true
     else if ty = "bugzilla" then Except.ok false
     else Except.error ("KeyError: " ++ ty))
  let acc ← rest.foldlM parseBit ([], [])
  if isGh then
    match acc.1 with
    | [u, r] =>
      if acc.2.any (fun p => p.1 == "self" || p.1 == "user" || p.1 == "repo")
      then .error "TypeError: multiple values for argument"
      else .ok (.github u r acc.2)
    | _ => .error "TypeError: wrong number of positional arguments"
  else
    match acc.1 with
    | [] =>
      if acc.2.any (fun p => p.1 == "self")
      then .error "TypeError: multiple values for argument"
      else .ok (.bugzilla acc.2)
    | _ => .error "TypeError: wrong number of positional arguments"

/-! ## Query-string serialization (`urlencode(filters, doseq=True)`) -/

/-- Hex digit characters used by percent-encoding. -/
def hexDig (n : Nat) : Char := "0123456789ABCDEF".data.getD n '0'

/-- `urllib.quote_plus` on one character: letters, digits and `_.-` pass
through, a space becomes `+`, anything else is percent-encoded. -/
def quoteChar (c : Char) : String :=
  if c.isAlpha || c.isDigit || c == '_' || c == '.' || c == '-' then
    String.mk [c]
  else if c == ' ' then "+"
  else String.mk ['%', hexDig (c.toNat % 256 / 16), hexDig (c.toNat % 16)]

/-- `urllib.quote_plus` on a string. -/
def quote_plus (s : String) : String := String.join (s.data.map quoteChar)

/-- Join query-string pairs with `&`. -/
def joinAmp : List String → String
  | [] => ""
  | [x] => x
  | x :: y :: rest => x ++ "&" ++ joinAmp (y :: rest)

/-- `urlencode(q, doseq=True)` over an association list whose list values
repeat the key once per value, in order. -/
def urlencodeDoseq (q : List (String × List String)) : String :=
  joinAmp (q.flatMap (fun kv => kv.2.map (fun v => quote_plus kv.1 ++ "=" ++ quote_plus v)))

/-! ## Bugzilla request URL (`Bugzilla.get_issues`, lines 151-165) -/

/-- `Bugzilla.API_BASE`. -/
def BZ_API_BASE : String := "https://api-dev.bugzilla.mozilla.org/latest/bug"

/-- The field-selection value assigned to `filters["include_fields"]`. -/
def includeFieldsValue : String :=
  "id,assigned_to,status,summary,product,component,attachments,keywords"

/-- Python `d[k] = v` on a dict modelled as an association list: overwrite
the existing entry or append a new one. -/
def pySetKey (q : List (String × List String)) (k : String) (v : List String) :
    List (String × List String) :=
  if q.any (fun p => p.1 == k)
  then q.map (fun p => if p.1 == k then (p.1, v) else p)
  else q ++ [(k, v)]

/-- The request URL `Bugzilla.get_issues` builds: the local copy `filters`
gets `include_fields` set, but the query string is serialized from
`self.filters`, so the computed copy is never used. -/
def bugzilla_get_issues_url (filters : List (String × List String)) : String :=
  let _withFields := pySetKey filters "include_fields" [includeFieldsValue]
  BZ_API_BASE ++ "?" ++ urlencodeDoseq filters

/-! ## CSV writer and pipeline driver (`main`, lines 193-240) -/

/-- A value of string or integer type, the two cell types the normalized
schema allows. -/
def strInt : Json → Prop
  | .s _ => True
  | .i _ => True
  | _ => False

/-- The truthy-label predicate the `is_enhancement` generator evaluates:
`i["name"] == "task"` (false is unreachable for labels that carry a
`name`). -/
def labelIsTask (l : Json) : Bool :=
  match pyGet l "name" with
  | .ok n => jeqStr n "task"
  | .error _ => false

/-- Well-formedness of one raw github issue: the fields `Github.get_all`
touches are present with API-shaped values.  The raw object may hold any
further keys. -/
def WfGhIssue (j : Json) : Prop :=
  ∃ kvs num urlS asgv stS ttS prJ prU ls,
    j = Json.obj kvs ∧
    alookupJ kvs "number" = some num ∧ strInt num ∧
    alookupJ kvs "html_url" = some (Json.s urlS) ∧
    (∃ asg, alookupJ kvs "assignee" = some asg ∧ asgLogin asg = .ok asgv) ∧
    strInt asgv ∧
    alookupJ kvs "state" = some (Json.s stS) ∧
    alookupJ kvs "title" = some (Json.s ttS) ∧
    alookupJ kvs "pull_request" = some prJ ∧
    pyGet prJ "html_url" = .ok prU ∧
    alookupJ kvs "labels" = some (Json.arr ls) ∧
    (∀ l ∈ ls, ∃ n, pyGet l "name" = .ok n)

/-- Like `WfGhIssue` up to the fields accessed before `pull_request`, but
the raw object carries no `pull_request` key at all. -/
def WfGhIssueNoPr (j : Json) : Prop :=
  ∃ kvs num urlS asgv stS ttS,
    j = Json.obj kvs ∧
    alookupJ kvs "number" = some num ∧
    alookupJ kvs "html_url" = some (Json.s urlS) ∧
    (∃ asg, alookupJ kvs "assignee" = some asg ∧ asgLogin asg = .ok asgv) ∧
    alookupJ kvs "state" = some (Json.s stS) ∧
    alookupJ kvs "title" = some (Json.s ttS) ∧
    alookupJ kvs "pull_request" = none

/-- First-match lookup in a filter mapping. -/
def alookupS : List (String × List String) → String → Option (List String)
  | [], _ => none
  | p :: ps, k => if p.1 = k then some p.2 else alookupS ps k

/-- The segments after the leading type tag of a source definition. -/
def defSegs (d : String) : List String := (pysplitStr d ':').tail

/-- The positional segments: those containing no `=`, in order. -/
def posSegs (segs : List String) : List String :=
  segs.filter (fun b => !(b.data.contains '='))

/-- The `key=val` segments as (key, value) pairs, in order; a segment with
two or more `=` yields no pair (it makes parsing fail instead). -/
def eqPairsOf (segs : List String) : List (String × String) :=
  segs.filterMap (fun b =>
    match splitChars '=' b.data with
    | [k, v] => some (String.mk k, String.mk v)
    | _ => none)

/-- The values given for one filter key, in the order their `key=val`
segments appear. -/
def FilterVals (segs : List String) (k : String) : List String :=
  (eqPairsOf segs).filterMap (fun p => if p.1 = k then some p.2 else none)

/-- Combine an existing filter entry with later values for the same key:
`none` stays `none` only when no later value arrives. -/
def mergeVals (o : Option (List String)) (vs : List String) : Option (List String) :=
  match o with
  | some xs => some (xs ++ vs)
  | none => if vs = [] then none else some vs

/-- A source instance's positional constructor arguments. -/
def srcPositionals : Src → List String
  | .github u r _ => [u, r]
  | .bugzilla _ => []

/-- A source instance's filter mapping. -/
def srcFilters : Src → List (String × List String)
  | .github _ _ fs => fs
  | .bugzilla fs => fs

/-- A valid source-definition string: a registered type tag, each segment
carrying at most one `=`, the positional count fitting the selected
constructor, and no filter key colliding with an already-bound constructor
parameter (`self` for either variant; also `user`/`repo` for github). -/
def validDef (d : String) : Bool :=
  match pysplitStr d ':' with
  | [] => false
  | ty :: rest =>
    ((ty == "github" && (posSegs rest).length == 2 &&
        (eqPairsOf rest).all (fun p =>
          !(p.1 == "self") && !(p.1 == "user") && !(p.1 == "repo"))) ||
     (ty == "bugzilla" && (posSegs rest).isEmpty &&
        (eqPairsOf rest).all (fun p => !(p.1 == "self")))) &&
    rest.all (fun b => b.data.count '=' ≤ 1)

/-! ## Statement vocabulary for the pagination claims -/

/-- Join chunks with a separator character (how a multi-entry `Link`
header concatenates its entries). -/
def intercalateChar (c : Char) : List (List Char) → List Char
  | [] => []
  | [x] => x
  | x :: y :: rest => x ++ (c :: intercalateChar c (y :: rest))

/-- One `Link`-header entry `<url>; rel="name"` for an (url, name) pair. -/
def renderEntry (p : List Char × List Char) : List Char :=
  '<' :: (p.1 ++ ('>' :: ';' :: ' ' :: ("rel=\"".data ++ (p.2 ++ ['"']))))

/-- A `Link` header carrying the given entries, comma-separated. -/
def renderHeader (es : List (List Char × List Char)) : List Char :=
  intercalateChar ',' (es.map renderEntry)

/-- Characters that leave the header grammar unambiguous: not a comma,
semicolon, angle bracket, or whitespace. -/
def cleanChar (c : Char) : Bool :=
  !(c == ',') && !(c == ';') && !(c == '<') && !(c == '>') && !(isWs c)

/-- A nonempty token of clean characters (URLs and relation names). -/
def CleanSeg (l : List Char) : Prop := l ≠ [] ∧ ∀ c ∈ l, cleanChar c = true

/-- Every entry of a header has clean url and relation tokens. -/
def EntriesClean (es : List (List Char × List Char)) : Prop :=
  ∀ p ∈ es, CleanSeg p.1 ∧ CleanSeg p.2

/-- The url of the last entry whose relation is `next` (later entries win,
as in the Python dict the header is folded into). -/
def lastRelNext (es : List (List Char × List Char)) : Option (List Char) :=
  es.foldl (fun acc p => if p.2 = "next".data then some p.1 else acc) none

/-- Response `r` carries a well-formed `Link` header whose `rel="next"`
entry points at `u'`. -/
def HasNextTo (r : GhResponse) (u' : List Char) : Prop :=
  ∃ es, r.linkHeader = some (renderHeader es) ∧ es ≠ [] ∧ EntriesClean es ∧
    lastRelNext es = some u'

/-- Response `r` has no `Link` header at all, or a well-formed one with no
`rel="next"` entry. -/
def NoNextResp (r : GhResponse) : Prop :=
  r.linkHeader = none ∨
  ∃ es, r.linkHeader = some (renderHeader es) ∧ es ≠ [] ∧ EntriesClean es ∧
    lastRelNext es = none

/-- A finite mock fetch sequence: every url is nonempty and fetchable,
each response's header points at the next url, and the final response has
no next entry. -/
def FollowChain (fetch : List Char → Option GhResponse) :
    List (List Char) → List GhResponse → Prop
  | [u], [r] => u ≠ [] ∧ fetch u = some r ∧ NoNextResp r
  | u :: u' :: us, r :: rs =>
    u ≠ [] ∧ fetch u = some r ∧ HasNextTo r u' ∧ FollowChain fetch (u' :: us) rs
  | _, _ => False

/-! ## Basic `Except` and `mapE` lemmas -/

@[simp] theorem ok_bind {ε α β : Type} (a : α) (f : α → Except ε β) :
    (Except.ok a >>= f) = f a := rfl

@[simp] theorem error_bind {ε α β : Type} (e : ε) (f : α → Except ε β) :
    (Except.error e >>= f : Except ε β) = Except.error e := rfl

theorem bind_eq_ok {ε α β : Type} {x : Except ε α} {f : α → Except ε β} {b : β} :
    x >>= f = .ok b ↔ ∃ a, x = .ok a ∧ f a = .ok b := by
  cases x <;> simp [Bind.bind, Except.bind]

/-! ## Evaluation lemmas for the two normalizers -/

theorem pyGet_obj {kvs : List (String × Json)} {k : String} {v : Json}
    (h : alookupJ kvs k = some v) : pyGet (Json.obj kvs) k = .ok v := by
  simp [pyGet, h]

/-- Computing `Github.get_all`'s record once every field access is known to
succeed. -/
theorem gh_norm_eval (repo : String) (kvs : List (String × Json))
    (num urlv asg asgv st tt prJ prU lsJ : Json) (ls : List Json) (fv : String)
    (hnum : alookupJ kvs "number" = some num)
    (hurl : alookupJ kvs "html_url" = some urlv)
    (hasg : alookupJ kvs "assignee" = some asg)
    (hasgv : asgLogin asg = .ok asgv)
    (hst : alookupJ kvs "state" = some st)
    (htt : alookupJ kvs "title" = some tt)
    (hpr : alookupJ kvs "pull_request" = some prJ)
    (hprU : pyGet prJ "html_url" = .ok prU)
    (hls : alookupJ kvs "labels" = some lsJ)
    (hlsA : asArr lsJ = .ok ls)
    (hfv : is_enhancement ls = .ok fv) :
    githubNormalize repo (Json.obj kvs) =
      .ok [("source", Json.s "github"), ("id", num), ("url", urlv),
           ("assigned", asgv), ("status", st), ("title", tt),
           ("product", Json.s repo), ("module", Json.s repo),
           ("patch", Json.s (if truthy prU then "y" else "n")),
           ("feature", Json.s fv)] := by
  simp [githubNormalize, pyGet_obj hnum, pyGet_obj hurl, pyGet_obj hasg,
        hasgv, pyGet_obj hst, pyGet_obj htt, pyGet_obj hpr, hprU,
        pyGet_obj hls, hlsA, hfv]

theorem jeqStr_iff {j : Json} {s : String} : jeqStr j s = true ↔ j = Json.s s := by
  cases j <;> simp [jeqStr]

/-- `is_enhancement` on a batch of labels whose `name` accesses all
succeed: `"y"` exactly when some label is named `"task"`. -/
theorem is_enhancement_eval {ls : List Json}
    (h : ∀ l ∈ ls, ∃ n, pyGet l "name" = .ok n) :
    is_enhancement ls = .ok (if ls.any labelIsTask then "y" else "n") := by
  induction ls with
  | nil => simp [is_enhancement]
  | cons l ls ih =>
    obtain ⟨n, hn⟩ := h l (List.mem_cons_self l ls)
    have hrest := ih (fun x hx => h x (List.mem_cons_of_mem l hx))
    by_cases ht : jeqStr n "task" = true
    · simp [is_enhancement, hn, ht, labelIsTask, List.any_cons]
    · simp only [Bool.not_eq_true] at ht
      simp [is_enhancement, hn, ht, labelIsTask, List.any_cons, hrest]

theorem pyGet_obj_none {kvs : List (String × Json)} {k : String}
    (h : alookupJ kvs k = none) :
    pyGet (Json.obj kvs) k = .error ("KeyError: " ++ k) := by
  simp [pyGet, h]

theorem labelIsTask_iff {l n : Json} (hn : pyGet l "name" = .ok n) :
    labelIsTask l = true ↔ pyGet l "name" = .ok (Json.s "task") := by
  simp [labelIsTask, hn, jeqStr_iff]

/-- C6: For a well-formed raw github issue, the normalized `feature` field
is `"y"` if and only if some label in the issue's `labels` list has name
exactly `"task"`, and is `"n"` otherwise; in particular it is `"n"` when
the labels list is empty. -/
theorem github_feature_iff_task_label (repo : String) (j : Json)
    (ls : List Json) (h : WfGhIssue j)
    (hls : pyGet j "labels" = .ok (Json.arr ls)) :
    ∃ rec, githubNormalize repo j = .ok rec ∧
      (alookupJ rec "feature" = some (Json.s "y") ↔
        ∃ l ∈ ls, pyGet l "name" = .ok (Json.s "task")) ∧
      ((¬ ∃ l ∈ ls, pyGet l "name" = .ok (Json.s "task")) →
        alookupJ rec "feature" = some (Json.s "n")) ∧
      (ls = [] → alookupJ rec "feature" = some (Json.s "n")) := by
  obtain ⟨kvs, num, urlS, asgv, stS, ttS, prJ, prU, ls₀, rfl, hnum, hnumSI,
    hurl, ⟨asg, hasg, hlog⟩, hasgSI, hst, htt, hpr, hprU, hls₀, hnames⟩ := h
  rw [pyGet_obj hls₀] at hls
  have hlseq : ls₀ = ls := by
    injection hls with hx
    injection hx
  rw [hlseq] at hls₀ hnames
  refine ⟨_, gh_norm_eval repo kvs num (Json.s urlS) asg asgv (Json.s stS)
    (Json.s ttS) prJ prU (Json.arr ls) ls _ hnum hurl hasg hlog hst htt hpr
    hprU hls₀ rfl (is_enhancement_eval hnames), ?_⟩
  have hiff : ls.any labelIsTask = true ↔
      ∃ l ∈ ls, pyGet l "name" = .ok (Json.s "task") := by
    rw [List.any_eq_true]
    constructor
    · rintro ⟨l, hl, ht⟩
      obtain ⟨n, hn⟩ := hnames l hl
      exact ⟨l, hl, (labelIsTask_iff hn).mp ht⟩
    · rintro ⟨l, hl, ht⟩
      obtain ⟨n, hn⟩ := hnames l hl
      exact ⟨l, hl, (labelIsTask_iff hn).mpr ht⟩
  by_cases hany : ls.any labelIsTask = true
  · refine ⟨?_, ?_, ?_⟩
    · simp [alookupJ, hany, hiff.mp hany]
    · intro hno
      exact absurd (hiff.mp hany) hno
    · rintro rfl
      simp [List.any_nil] at hany
  · rw [Bool.not_eq_true] at hany
    have hno : ¬ ∃ l ∈ ls, pyGet l "name" = .ok (Json.s "task") := by
      intro hex
      rw [← hiff] at hex
      rw [hany] at hex
      exact Bool.false_ne_true hex
    refine ⟨?_, ?_, ?_⟩
    · simp [alookupJ, hany, hno]
    · intro _
      simp [alookupJ, hany]
    · intro _
      simp [alookupJ, hany]

/-- Witness for C6 at a concrete issue whose only label is named
`"task"`. -/
theorem github_feature_iff_task_label_witness :
    ∃ rec, githubNormalize "widgets"
        (Json.obj [("number", Json.i 7), ("html_url", Json.s "http://g/7"),
          ("assignee", Json.null), ("state", Json.s "open"),
          ("title", Json.s "T"),
          ("pull_request", Json.obj [("html_url", Json.null)]),
          ("labels", Json.arr [Json.obj [("name", Json.s "task")]])]) =
        .ok rec ∧
      (alookupJ rec "feature" = some (Json.s "y") ↔
        ∃ l ∈ [Json.obj [("name", Json.s "task")]],
          pyGet l "name" = .ok (Json.s "task")) ∧
      ((¬ ∃ l ∈ [Json.obj [("name", Json.s "task")]],
          pyGet l "name" = .ok (Json.s "task")) →
        alookupJ rec "feature" = some (Json.s "n")) ∧
      (([Json.obj [("name", Json.s "task")]] : List Json) = [] →
        alookupJ rec "feature" = some (Json.s "n")) :=
  github_feature_iff_task_label "widgets" _ _
    ⟨_, _, _, _, _, _, _, _, _, rfl, rfl, trivial, rfl, ⟨_, rfl, rfl⟩,
      trivial, rfl, rfl, rfl, rfl, rfl, by
        intro l hl
        rw [List.mem_singleton] at hl
        subst hl
        exact ⟨_, rfl⟩⟩
    rfl

/-- Counterexample for C7: a raw issue with no pull-request linkage at all
(no `pull_request` key) does not normalize to `patch = "n"` — `get_all`
raises KeyError on it and yields no record. -/
theorem github_patch_no_pr_counterexample :
    githubNormalize "widgets" (Json.obj [("number", Json.i 1),
      ("html_url", Json.s "u"), ("assignee", Json.null),
      ("state", Json.s "open"), ("title", Json.s "t"),
      ("labels", Json.arr [])]) = .error "KeyError: pull_request" := rfl

/-- C7 amended: when the issue's `pull_request` key is present (an object
carrying an `html_url` key), the normalized `patch` field is `"y"` if that
web URL is truthy (non-null, non-empty) and `"n"` otherwise; but an issue
with no `pull_request` key at all makes `Github.get_all` raise KeyError
instead of normalizing to `patch = "n"`. -/
theorem github_patch_amended (repo : String) (j j₂ : Json)
    (h : WfGhIssue j) (h₂ : WfGhIssueNoPr j₂) :
    (∃ rec prJ prU, githubNormalize repo j = .ok rec ∧
       pyGet j "pull_request" = .ok prJ ∧
       pyGet prJ "html_url" = .ok prU ∧
       alookupJ rec "patch" =
         some (Json.s (if truthy prU then "y" else "n"))) ∧
    githubNormalize repo j₂ = .error "KeyError: pull_request" := by
  constructor
  · obtain ⟨kvs, num, urlS, asgv, stS, ttS, prJ, prU, ls, rfl, hnum, hnumSI,
      hurl, ⟨asg, hasg, hlog⟩, hasgSI, hst, htt, hpr, hprU, hls, hnames⟩ := h
    refine ⟨_, prJ, prU, gh_norm_eval repo kvs num (Json.s urlS) asg asgv
      (Json.s stS) (Json.s ttS) prJ prU (Json.arr ls) ls _ hnum hurl hasg
      hlog hst htt hpr hprU hls rfl (is_enhancement_eval hnames),
      pyGet_obj hpr, hprU, ?_⟩
    simp [alookupJ]
  · obtain ⟨kvs, num, urlS, asgv, stS, ttS, rfl, hnum, hurl,
      ⟨asg, hasg, hlog⟩, hst, htt, hpr⟩ := h₂
    simp [githubNormalize, pyGet_obj hnum, pyGet_obj hurl, pyGet_obj hasg,
      hlog, pyGet_obj hst, pyGet_obj htt, pyGet_obj_none hpr]

/-- Witness for C7's amended statement: a concrete issue whose
`pull_request.html_url` is null normalizes to `patch = "n"`, and a
concrete issue lacking the key errors. -/
theorem github_patch_amended_witness :
    (∃ rec prJ prU, githubNormalize "widgets"
        (Json.obj [("number", Json.i 7), ("html_url", Json.s "http://g/7"),
          ("assignee", Json.null), ("state", Json.s "open"),
          ("title", Json.s "T"),
          ("pull_request", Json.obj [("html_url", Json.null)]),
          ("labels", Json.arr [])]) = .ok rec ∧
       pyGet (Json.obj [("number", Json.i 7), ("html_url", Json.s "http://g/7"),
          ("assignee", Json.null), ("state", Json.s "open"),
          ("title", Json.s "T"),
          ("pull_request", Json.obj [("html_url", Json.null)]),
          ("labels", Json.arr [])]) "pull_request" = .ok prJ ∧
       pyGet prJ "html_url" = .ok prU ∧
       alookupJ rec "patch" =
         some (Json.s (if truthy prU then "y" else "n"))) ∧
    githubNormalize "widgets" (Json.obj [("number", Json.i 2),
      ("html_url", Json.s "v"), ("assignee", Json.null),
      ("state", Json.s "open"), ("title", Json.s "t2"),
      ("labels", Json.arr [])]) = .error "KeyError: pull_request" :=
  github_patch_amended "widgets" _ _
    ⟨_, _, _, _, _, _, _, _, _, rfl, rfl, trivial, rfl, ⟨_, rfl, rfl⟩,
      trivial, rfl, rfl, rfl, rfl, rfl, by
        intro l hl
        exact absurd hl (List.not_mem_nil l)⟩
    ⟨_, _, _, _, _, _, rfl, rfl, rfl, ⟨_, rfl, rfl⟩, rfl, rfl, rfl⟩

/-! ## CSV pipeline lemmas -/

theorem pySetKey_absent {q : List (String × List String)} {k : String}
    {v : List String} (h : q.any (fun p => p.1 == k) = false) :
    pySetKey q k v = q ++ [(k, v)] := by
  simp [pySetKey, h]

theorem joinAmp_append_lt :
    ∀ (xs : List String) (y : String), 0 < y.length →
      (joinAmp xs).length < (joinAmp (xs ++ [y])).length := by
  intro xs
  induction xs with
  | nil =>
    intro y hy
    simpa [joinAmp] using hy
  | cons x xs ih =>
    intro y hy
    have hamp : "&".length = 1 := rfl
    cases xs with
    | nil =>
      simp only [List.cons_append, List.nil_append, joinAmp,
        String.length_append, hamp]
      omega
    | cons x' xs' =>
      have hin := ih y hy
      simp only [List.cons_append, List.append_eq, joinAmp,
        String.length_append, hamp] at hin ⊢
      omega

/-- C8: For every Bugzilla source (whose constructor filters do not
themselves use the key `include_fields`), the query string of the request
URL built by `get_issues` is exactly the serialization of the
constructor-supplied filters — and differs from what serializing the
computed `include_fields`-augmented mapping would give, i.e. the computed
field-selection parameter never appears in the query that is sent. -/
theorem bugzilla_query_is_constructor_filters
    (filters : List (String × List String))
    (h : filters.any (fun p => p.1 == "include_fields") = false) :
    bugzilla_get_issues_url filters =
      BZ_API_BASE ++ "?" ++ urlencodeDoseq filters ∧
    bugzilla_get_issues_url filters ≠
      BZ_API_BASE ++ "?" ++
        urlencodeDoseq (pySetKey filters "include_fields" [includeFieldsValue]) := by
  refine ⟨rfl, ?_⟩
  intro he
  rw [pySetKey_absent h] at he
  have hB : urlencodeDoseq (filters ++ [("include_fields", [includeFieldsValue])]) =
      joinAmp ((filters.flatMap
          (fun kv => kv.2.map (fun v => quote_plus kv.1 ++ "=" ++ quote_plus v))) ++
        [quote_plus "include_fields" ++ "=" ++ quote_plus includeFieldsValue]) := by
    simp [urlencodeDoseq]
  have hpos : 0 < (quote_plus "include_fields" ++ "=" ++
      quote_plus includeFieldsValue).length := by
    have heq : "=".length = 1 := rfl
    simp only [String.length_append, heq]
    omega
  have hlt := joinAmp_append_lt
    (filters.flatMap
      (fun kv => kv.2.map (fun v => quote_plus kv.1 ++ "=" ++ quote_plus v)))
    (quote_plus "include_fields" ++ "=" ++ quote_plus includeFieldsValue) hpos
  have hlen := congrArg String.length he
  rw [hB] at hlen
  simp only [bugzilla_get_issues_url, urlencodeDoseq, String.length_append] at hlen
  omega

/-- Witness for C8 at the multi-valued filter set
`status=NEW, status=ASSIGNED`. -/
theorem bugzilla_query_is_constructor_filters_witness :
    bugzilla_get_issues_url [("status", ["NEW", "ASSIGNED"])] =
      BZ_API_BASE ++ "?" ++ urlencodeDoseq [("status", ["NEW", "ASSIGNED"])] ∧
    bugzilla_get_issues_url [("status", ["NEW", "ASSIGNED"])] ≠
      BZ_API_BASE ++ "?" ++
        urlencodeDoseq (pySetKey [("status", ["NEW", "ASSIGNED"])]
          "include_fields" [includeFieldsValue]) :=
  bugzilla_query_is_constructor_filters [("status", ["NEW", "ASSIGNED"])] rfl

/-! ## `splitChars` lemmas -/

theorem splitChars_cons (sep c : Char) (cs : List Char) :
    splitChars sep (c :: cs) =
      match splitChars sep cs with
      | [] => [[]]
      | chunk :: rest =>
        if c = sep then [] :: chunk :: rest else (c :: chunk) :: rest := rfl

theorem splitChars_ne_nil (sep : Char) :
    ∀ (l : List Char), splitChars sep l ≠ [] := by
  intro l
  cases l with
  | nil => simp [splitChars]
  | cons c cs =>
    rw [splitChars_cons]
    cases h : splitChars sep cs with
    | nil => simp
    | cons chunk rest =>
      by_cases hc : c = sep <;> simp [hc]

theorem splitChars_cons_cons (sep c : Char) (cs chunk : List Char)
    (rest : List (List Char)) (h : splitChars sep cs = chunk :: rest) :
    splitChars sep (c :: cs) =
      if c = sep then [] :: chunk :: rest else (c :: chunk) :: rest := by
  rw [splitChars_cons, h]

theorem splitChars_length (sep : Char) :
    ∀ (l : List Char), (splitChars sep l).length = l.count sep + 1 := by
  intro l
  induction l with
  | nil => rfl
  | cons c cs ih =>
    cases h : splitChars sep cs with
    | nil => exact absurd h (splitChars_ne_nil sep cs)
    | cons chunk rest =>
      rw [splitChars_cons_cons sep c cs chunk rest h]
      rw [h] at ih
      simp only [List.length_cons] at ih
      by_cases hc : c = sep
      · rw [if_pos hc, hc]
        simp only [List.length_cons, List.count_cons, beq_self_eq_true, if_true]
        omega
      · rw [if_neg hc]
        rw [List.count_cons_of_ne (Ne.symm hc)]
        simp only [List.length_cons]
        omega

theorem splitChars_no_sep (sep : Char) :
    ∀ {l : List Char}, sep ∉ l → splitChars sep l = [l] := by
  intro l
  induction l with
  | nil => exact fun _ => rfl
  | cons c cs ih =>
    intro h
    rw [splitChars_cons, ih (fun hm => h (List.mem_cons_of_mem c hm))]
    simp only []
    rw [if_neg (fun hc : c = sep => h (hc ▸ List.mem_cons_self c cs))]

theorem splitChars_chunk_no_sep (sep : Char) :
    ∀ (l : List Char), ∀ ch ∈ splitChars sep l, sep ∉ ch := by
  intro l
  induction l with
  | nil =>
    intro ch hch
    rw [show splitChars sep [] = [[]] from rfl, List.mem_singleton] at hch
    subst hch
    exact List.not_mem_nil sep
  | cons c cs ih =>
    intro ch hch
    cases h : splitChars sep cs with
    | nil => exact absurd h (splitChars_ne_nil sep cs)
    | cons chunk rest =>
      rw [splitChars_cons_cons sep c cs chunk rest h] at hch
      by_cases hc : c = sep
      · rw [if_pos hc] at hch
        rcases List.mem_cons.mp hch with rfl | hch
        · exact List.not_mem_nil sep
        · exact ih ch (h ▸ hch)
      · rw [if_neg hc] at hch
        rcases List.mem_cons.mp hch with rfl | hch
        · intro hm
          rcases List.mem_cons.mp hm with rfl | hm
          · exact hc rfl
          · exact ih chunk (h ▸ List.mem_cons_self chunk rest) hm
        · exact ih ch (h ▸ List.mem_cons_of_mem chunk hch)

/-! ## `parse_source` fold lemmas -/

theorem count_pos_contains {l : List Char} {c : Char} (h : 0 < l.count c) :
    l.contains c = true := by
  have hm : c ∈ l := List.count_pos_iff.mp h
  simpa using hm

theorem count_zero_contains {l : List Char} {c : Char} (h : l.count c = 0) :
    l.contains c = false := by
  by_contra hc
  rw [Bool.not_eq_false] at hc
  have hm : c ∈ l := by simpa using hc
  rw [← List.count_pos_iff] at hm
  omega

theorem parseBit_bad {acc : List String × List (String × List String)}
    {bit : String} (h : 2 ≤ bit.data.count '=') :
    parseBit acc bit = .error "ValueError: too many values to unpack" := by
  have hcont : bit.data.contains '=' = true := count_pos_contains (by omega)
  have hlen : (splitChars '=' bit.data).length = bit.data.count '=' + 1 :=
    splitChars_length '=' bit.data
  unfold parseBit
  rw [hcont]
  simp only [if_true]
  cases hs : splitChars '=' bit.data with
  | nil => exact absurd hs (splitChars_ne_nil '=' bit.data)
  | cons a t =>
    cases t with
    | nil => rfl
    | cons b t' =>
      cases t' with
      | nil =>
        rw [hs] at hlen
        simp only [List.length_cons, List.length_nil] at hlen
        exfalso
        omega
      | cons c t'' => rfl

theorem foldlM_parseBit_bad :
    ∀ (rest : List String) (acc : List String × List (String × List String)),
      (∃ bit ∈ rest, 2 ≤ bit.data.count '=') →
      ∃ e, rest.foldlM parseBit acc = Except.error e := by
  intro rest
  induction rest with
  | nil =>
    rintro acc ⟨bit, hmem, _⟩
    exact absurd hmem (List.not_mem_nil bit)
  | cons b rest ih =>
    rintro acc ⟨bit, hmem, hcnt⟩
    rcases List.mem_cons.mp hmem with rfl | hmem
    · refine ⟨"ValueError: too many values to unpack", ?_⟩
      rw [List.foldlM_cons, parseBit_bad hcnt]
      rfl
    · cases hpb : parseBit acc b with
      | error e =>
        refine ⟨e, ?_⟩
        rw [List.foldlM_cons, hpb]
        rfl
      | ok acc' =>
        obtain ⟨e, he⟩ := ih acc' ⟨bit, hmem, hcnt⟩
        refine ⟨e, ?_⟩
        rw [List.foldlM_cons, hpb]
        simpa using he

theorem pysplitStr_ne_nil (d : String) (sep : Char) : pysplitStr d sep ≠ [] := by
  intro h
  have hbase := splitChars_ne_nil sep d.data
  unfold pysplitStr at h
  rw [List.map_eq_nil_iff] at h
  exact hbase h

/-- C10: For every source-definition string containing a segment with more
than one `=` character, `parse_source` raises an error instead of
splitting on the first `=`; `key, val = bit.split("=")` unpacks a
three-chunk split and fails with ValueError (an unknown leading segment
fails earlier with KeyError). -/
theorem parse_source_multi_eq_raises (d : String)
    (h : ∃ bit ∈ pysplitStr d ':', 2 ≤ bit.data.count '=') :
    ∃ e, parse_source d = .error e := by
  obtain ⟨bit, hmem, hcnt⟩ := h
  cases hsp : pysplitStr d ':' with
  | nil =>
    rw [hsp] at hmem
    exact absurd hmem (List.not_mem_nil bit)
  | cons ty rest =>
    rw [hsp] at hmem
    rcases List.mem_cons.mp hmem with rfl | hmem
    · have h1 : bit ≠ "github" := by
        intro he
        rw [he] at hcnt
        revert hcnt
        decide
      have h2 : bit ≠ "bugzilla" := by
        intro he
        rw [he] at hcnt
        revert hcnt
        decide
      refine ⟨"KeyError: " ++ bit, ?_⟩
      unfold parse_source
      rw [hsp]
      simp [h1, h2]
    · by_cases h1 : ty = "github"
      · obtain ⟨e, he⟩ := foldlM_parseBit_bad rest ([], []) ⟨bit, hmem, hcnt⟩
        refine ⟨e, ?_⟩
        unfold parse_source
        rw [hsp]
        simp only [List.headD_cons, List.tail_cons, if_pos h1, ok_bind]
        rw [he]
        rfl
      · by_cases h2 : ty = "bugzilla"
        · obtain ⟨e, he⟩ := foldlM_parseBit_bad rest ([], []) ⟨bit, hmem, hcnt⟩
          refine ⟨e, ?_⟩
          unfold parse_source
          rw [hsp]
          simp only [List.headD_cons, List.tail_cons, if_neg h1, if_pos h2,
            ok_bind]
          rw [he]
          rfl
        · refine ⟨"KeyError: " ++ ty, ?_⟩
          unfold parse_source
          rw [hsp]
          simp [h1, h2]

/-- Witness for C10 at the definition `bugzilla:status=a=b`. -/
theorem parse_source_multi_eq_raises_witness :
    (∃ bit ∈ pysplitStr "bugzilla:status=a=b" ':', 2 ≤ bit.data.count '=') ∧
    ∃ e, parse_source "bugzilla:status=a=b" = .error e :=
  ⟨by decide, parse_source_multi_eq_raises "bugzilla:status=a=b" (by decide)⟩

/-! ## Filter-accumulation lemmas -/

theorem alookupS_map_upd (k₀ v₀ : String) :
    ∀ (kw : List (String × List String)) (k : String),
      alookupS (kw.map (fun p => if p.1 == k₀ then (p.1, p.2 ++ [v₀]) else p)) k =
        if k = k₀ then (alookupS kw k).map (fun vs => vs ++ [v₀])
        else alookupS kw k := by
  intro kw
  induction kw with
  | nil =>
    intro k
    by_cases hk : k = k₀ <;> simp [alookupS, hk]
  | cons p kw ih =>
    intro k
    by_cases hpk : p.1 = k₀
    · have hb : (p.1 == k₀) = true := beq_iff_eq.mpr hpk
      rw [List.map_cons, if_pos hb]
      by_cases hk : p.1 = k
      · have hkk : k = k₀ := hk.symm.trans hpk
        simp [alookupS, hk, hkk]
      · simp only [alookupS, if_neg hk]
        rw [ih]
    · have hb : (p.1 == k₀) = false := by simp [hpk]
      rw [List.map_cons, if_neg (by simp [hb])]
      by_cases hk : p.1 = k
      · have hkne : ¬(k = k₀) := fun hkk => hpk (hk.trans hkk)
        simp [alookupS, hk, hkne]
      · simp only [alookupS, if_neg hk]
        rw [ih]

theorem any_key_true_lookup :
    ∀ {kw : List (String × List String)} {k₀ : String},
      kw.any (fun p => p.1 == k₀) = true → ∃ vs, alookupS kw k₀ = some vs := by
  intro kw
  induction kw with
  | nil =>
    intro k₀ h
    simp at h
  | cons p kw ih =>
    intro k₀ h
    by_cases hpk : p.1 = k₀
    · exact ⟨p.2, by simp [alookupS, hpk]⟩
    · rw [List.any_cons] at h
      have hb : (p.1 == k₀) = false := by simp [hpk]
      rw [hb, Bool.false_or] at h
      obtain ⟨vs, hvs⟩ := ih h
      exact ⟨vs, by simp [alookupS, hpk, hvs]⟩

theorem any_key_false_lookup :
    ∀ {kw : List (String × List String)} {k₀ : String},
      kw.any (fun p => p.1 == k₀) = false → alookupS kw k₀ = none := by
  intro kw
  induction kw with
  | nil =>
    intro k₀ _
    rfl
  | cons p kw ih =>
    intro k₀ h
    rw [List.any_cons, Bool.or_eq_false_iff] at h
    have hpk : ¬(p.1 = k₀) := by
      intro he
      rw [he] at h
      simp at h
    simp [alookupS, hpk, ih h.2]

theorem alookupS_append_single :
    ∀ (kw : List (String × List String)) (k₀ : String) (v₀ : List String)
      (k : String),
      alookupS (kw ++ [(k₀, v₀)]) k =
        match alookupS kw k with
        | some vs => some vs
        | none => if k = k₀ then some v₀ else none := by
  intro kw
  induction kw with
  | nil =>
    intro k₀ v₀ k
    by_cases hk : k₀ = k
    · simp [alookupS, hk]
    · simp only [List.nil_append, alookupS, if_neg hk]
      show (none : Option (List String)) = if k = k₀ then some v₀ else none
      rw [if_neg (fun h : k = k₀ => hk h.symm)]
  | cons p kw ih =>
    intro k₀ v₀ k
    by_cases hk : p.1 = k
    · simp [alookupS, hk]
    · simp only [List.cons_append, alookupS, if_neg hk]
      exact ih k₀ v₀ k

/-- Dict lookup after one `kwargs[key].append(val)` step. -/
theorem alookupS_appendKw (kw : List (String × List String)) (k₀ v₀ k : String) :
    alookupS (appendKw kw k₀ v₀) k =
      if k = k₀ then some ((alookupS kw k₀).getD [] ++ [v₀])
      else alookupS kw k := by
  cases hany : kw.any (fun p => p.1 == k₀) with
  | true =>
    obtain ⟨vs, hvs⟩ := any_key_true_lookup hany
    rw [show appendKw kw k₀ v₀ =
        kw.map (fun p => if p.1 == k₀ then (p.1, p.2 ++ [v₀]) else p) by
      simp [appendKw, hany]]
    rw [alookupS_map_upd]
    by_cases hk : k = k₀
    · rw [if_pos hk, if_pos hk, hk, hvs]
      rfl
    · rw [if_neg hk, if_neg hk]
  | false =>
    have hnone := any_key_false_lookup hany
    rw [show appendKw kw k₀ v₀ = kw ++ [(k₀, [v₀])] by simp [appendKw, hany]]
    rw [alookupS_append_single]
    by_cases hk : k = k₀
    · rw [if_pos hk, hk, hnone]
      simp
    · cases h : alookupS kw k with
      | some vs =>
        show some vs =
          if k = k₀ then some ((alookupS kw k₀).getD [] ++ [v₀]) else some vs
        rw [if_neg hk]
      | none =>
        show (if k = k₀ then some [v₀] else none) =
          if k = k₀ then some ((alookupS kw k₀).getD [] ++ [v₀]) else none
        rw [if_neg hk, if_neg hk]

/-- Dict lookup after folding a whole batch of `key=val` pairs. -/
theorem foldl_appendKw_lookup :
    ∀ (ps : List (String × String)) (kw : List (String × List String))
      (k : String),
      alookupS (ps.foldl (fun acc p => appendKw acc p.1 p.2) kw) k =
        mergeVals (alookupS kw k)
          (ps.filterMap (fun p => if p.1 = k then some p.2 else none)) := by
  intro ps
  induction ps with
  | nil =>
    intro kw k
    cases h : alookupS kw k <;> simp [mergeVals, h]
  | cons p ps ih =>
    intro kw k
    rw [List.foldl_cons, ih]
    rw [alookupS_appendKw]
    by_cases hk : k = p.1
    · rw [if_pos hk]
      rw [List.filterMap_cons]
      rw [if_pos hk.symm]
      cases h : alookupS kw k with
      | some vs =>
        rw [hk] at h
        rw [h]
        simp [mergeVals, ← hk, h]
      | none =>
        rw [hk] at h
        rw [h]
        simp [mergeVals, ← hk, h]
    · rw [if_neg hk]
      rw [List.filterMap_cons]
      rw [if_neg (fun he : p.1 = k => hk he.symm)]

theorem parseBit_noeq {acc : List String × List (String × List String)}
    {bit : String} (h : bit.data.contains '=' = false) :
    parseBit acc bit = .ok (acc.1 ++ [bit], acc.2) := by
  have hm : '=' ∉ bit.data := by simpa using h
  simp [parseBit, hm]

theorem split_two_of_count_one {bit : String} (h : bit.data.count '=' = 1) :
    ∃ k v, splitChars '=' bit.data = [k, v] := by
  have hlen : (splitChars '=' bit.data).length = 2 := by
    rw [splitChars_length, h]
  cases hs : splitChars '=' bit.data with
  | nil => exact absurd hs (splitChars_ne_nil '=' bit.data)
  | cons a t =>
    cases t with
    | nil =>
      rw [hs] at hlen
      simp at hlen
    | cons b t' =>
      cases t' with
      | nil => exact ⟨a, b, rfl⟩
      | cons c t'' =>
        rw [hs] at hlen
        simp only [List.length_cons] at hlen
        omega

theorem parseBit_oneeq {acc : List String × List (String × List String)}
    {bit : String} {k v : List Char}
    (hs : splitChars '=' bit.data = [k, v])
    (hc : bit.data.contains '=' = true) :
    parseBit acc bit = .ok (acc.1, appendKw acc.2 (String.mk k) (String.mk v)) := by
  have hm : '=' ∈ bit.data := by simpa using hc
  simp [parseBit, hm, hs]

theorem posSegs_cons_noeq {b : String} {rest : List String}
    (h : b.data.contains '=' = false) :
    posSegs (b :: rest) = b :: posSegs rest := by
  have hm : '=' ∉ b.data := by simpa using h
  simp [posSegs, hm]

theorem posSegs_cons_eq {b : String} {rest : List String}
    (h : b.data.contains '=' = true) :
    posSegs (b :: rest) = posSegs rest := by
  have hm : '=' ∈ b.data := by simpa using h
  simp [posSegs, hm]

theorem eqPairsOf_cons_noeq {b : String} {rest : List String}
    (h : '=' ∉ b.data) : eqPairsOf (b :: rest) = eqPairsOf rest := by
  simp [eqPairsOf, List.filterMap_cons, splitChars_no_sep '=' h]

theorem eqPairsOf_cons_one {b : String} {rest : List String} {k v : List Char}
    (hs : splitChars '=' b.data = [k, v]) :
    eqPairsOf (b :: rest) =
      (String.mk k, String.mk v) :: eqPairsOf rest := by
  simp [eqPairsOf, List.filterMap_cons, hs]

/-- The `for bit in bits` loop on well-shaped segments: positional
segments accumulate in order, `key=val` segments fold through
`kwargs[key].append(val)`. -/
theorem foldlM_parseBit_good :
    ∀ (rest : List String) (args : List String)
      (kw : List (String × List String)),
      (∀ bit ∈ rest, bit.data.count '=' ≤ 1) →
      rest.foldlM parseBit (args, kw) =
        .ok (args ++ posSegs rest,
          (eqPairsOf rest).foldl (fun acc p => appendKw acc p.1 p.2) kw) := by
  intro rest
  induction rest with
  | nil =>
    intro args kw _
    simp [posSegs, eqPairsOf]
    rfl
  | cons b rest ih =>
    intro args kw h
    have hble := h b (List.mem_cons_self b rest)
    have htail := fun x hx => h x (List.mem_cons_of_mem b hx)
    rw [List.foldlM_cons]
    rcases Nat.le_one_iff_eq_zero_or_eq_one.mp hble with h0 | h1
    · have hcf : b.data.contains '=' = false := count_zero_contains h0
      have hnm : '=' ∉ b.data := List.count_eq_zero.mp h0
      rw [parseBit_noeq hcf, ok_bind, ih (args ++ [b]) kw htail,
        posSegs_cons_noeq hcf, eqPairsOf_cons_noeq hnm]
      simp [List.append_assoc]
    · obtain ⟨k, v, hs⟩ := split_two_of_count_one h1
      have hct : b.data.contains '=' = true := count_pos_contains (by omega)
      rw [parseBit_oneeq hs hct, ok_bind,
        ih args (appendKw kw (String.mk k) (String.mk v)) htail,
        posSegs_cons_eq hct, eqPairsOf_cons_one hs, List.foldl_cons]

theorem appendKw_keys {kw : List (String × List String)} {k v x : String}
    (h : x ∈ (appendKw kw k v).map Prod.fst) :
    x ∈ kw.map Prod.fst ∨ x = k := by
  unfold appendKw at h
  by_cases hany : kw.any (fun p => p.1 == k) = true
  · rw [if_pos hany] at h
    left
    have hsame : (kw.map (fun p => if p.1 == k then (p.1, p.2 ++ [v]) else p)).map
        Prod.fst = kw.map Prod.fst := by
      rw [List.map_map]
      apply List.map_congr_left
      intro p _
      by_cases hp : p.1 = k
      · simp [hp]
      · simp [hp]
    rwa [hsame] at h
  · rw [if_neg hany] at h
    rw [List.map_append] at h
    rcases List.mem_append.mp h with h | h
    · exact Or.inl h
    · right
      simpa using h

theorem foldl_appendKw_keys :
    ∀ (ps : List (String × String)) (kw : List (String × List String))
      (q : String × List String),
      q ∈ ps.foldl (fun acc p => appendKw acc p.1 p.2) kw →
      q.1 ∈ kw.map Prod.fst ∨ q.1 ∈ ps.map Prod.fst := by
  intro ps
  induction ps with
  | nil =>
    intro kw q hq
    exact Or.inl (List.mem_map_of_mem Prod.fst hq)
  | cons p ps ih =>
    intro kw q hq
    rw [List.foldl_cons] at hq
    rcases ih (appendKw kw p.1 p.2) q hq with hin | hin
    · rcases appendKw_keys hin with hin | hin
      · exact Or.inl hin
      · exact Or.inr (by simp [hin])
    · exact Or.inr (List.mem_cons_of_mem p.1 hin)

/-- C3: For every valid source-definition string, `parse_source` returns a
source instance whose positional arguments are the non-`=` segments in
left-to-right order and whose filter mapping sends each key to the list of
its values in the order the `key=val` segments appeared. -/
theorem parse_source_valid_config (d : String) (h : validDef d = true) :
    ∃ src, parse_source d = .ok src ∧
      srcPositionals src = posSegs (defSegs d) ∧
      ∀ k, alookupS (srcFilters src) k =
        (if FilterVals (defSegs d) k = [] then none
         else some (FilterVals (defSegs d) k)) := by
  cases hsp : pysplitStr d ':' with
  | nil => exact absurd hsp (pysplitStr_ne_nil d ':')
  | cons ty rest =>
    have hsegs : defSegs d = rest := by simp [defSegs, hsp]
    unfold validDef at h
    rw [hsp] at h
    simp only [Bool.and_eq_true, Bool.or_eq_true, beq_iff_eq,
      Bool.not_eq_true', beq_eq_false_iff_ne, List.all_eq_true,
      decide_eq_true_eq, List.isEmpty_iff] at h
    obtain ⟨hty, hcnt⟩ := h
    have hfold := foldlM_parseBit_good rest [] [] hcnt
    have hlookups : ∀ k,
        alookupS ((eqPairsOf rest).foldl
          (fun acc p => appendKw acc p.1 p.2) []) k =
          (if FilterVals (defSegs d) k = [] then none
           else some (FilterVals (defSegs d) k)) := by
      intro k
      rw [foldl_appendKw_lookup, hsegs]
      simp [mergeVals, FilterVals, alookupS]
    rcases hty with ⟨⟨hgh, hlen2⟩, hkeys⟩ | ⟨⟨hbz, hpos0⟩, hbkeys⟩
    · obtain ⟨u, r, hpos⟩ : ∃ u r, posSegs rest = [u, r] := by
        cases hp : posSegs rest with
        | nil =>
          rw [hp] at hlen2
          simp at hlen2
        | cons a t =>
          cases t with
          | nil =>
            rw [hp] at hlen2
            simp at hlen2
          | cons b t' =>
            cases t' with
            | nil => exact ⟨a, b, rfl⟩
            | cons c t'' =>
              rw [hp] at hlen2
              simp only [List.length_cons] at hlen2
              omega
      have hanyf : ((eqPairsOf rest).foldl
          (fun acc p => appendKw acc p.1 p.2) []).any
            (fun p => p.1 == "self" || p.1 == "user" || p.1 == "repo") =
          false := by
        rw [List.any_eq_false]
        intro q hq
        rcases foldl_appendKw_keys (eqPairsOf rest) [] q hq with hin | hin
        · simp at hin
        · obtain ⟨pr, hpr, hfst⟩ := List.mem_map.mp hin
          obtain ⟨⟨hs, hu⟩, hr⟩ := hkeys pr hpr
          rw [← hfst]
          simp [hs, hu, hr]
      refine ⟨.github u r
        ((eqPairsOf rest).foldl (fun acc p => appendKw acc p.1 p.2) []),
        ?_, ?_, ?_⟩
      · unfold parse_source
        rw [hsp]
        simp only [List.headD_cons, List.tail_cons]
        rw [if_pos hgh, ok_bind, hfold, ok_bind]
        simp only [List.nil_append, hpos]
        show (if ((eqPairsOf rest).foldl (fun acc p => appendKw acc p.1 p.2) []).any
              (fun p => p.1 == "self" || p.1 == "user" || p.1 == "repo") = true
            then Except.error "TypeError: multiple values for argument"
            else Except.ok (Src.github u r
              ((eqPairsOf rest).foldl (fun acc p => appendKw acc p.1 p.2) []))) =
          Except.ok (Src.github u r
            ((eqPairsOf rest).foldl (fun acc p => appendKw acc p.1 p.2) []))
        rw [if_neg (by rw [hanyf]; exact Bool.false_ne_true)]
      · rw [srcPositionals, hsegs, hpos]
      · intro k
        rw [srcFilters]
        exact hlookups k
    · refine ⟨.bugzilla
        ((eqPairsOf rest).foldl (fun acc p => appendKw acc p.1 p.2) []),
        ?_, ?_, ?_⟩
      · have hanyb : ((eqPairsOf rest).foldl
            (fun acc p => appendKw acc p.1 p.2) []).any
              (fun p => p.1 == "self") = false := by
          rw [List.any_eq_false]
          intro q hq
          rcases foldl_appendKw_keys (eqPairsOf rest) [] q hq with hin | hin
          · simp at hin
          · obtain ⟨pr, hpr, hfst⟩ := List.mem_map.mp hin
            rw [← hfst]
            simp [hbkeys pr hpr]
        unfold parse_source
        rw [hsp]
        simp only [List.headD_cons, List.tail_cons]
        rw [hbz, if_neg (show ¬("bugzilla" = "github") by decide),
          if_pos rfl, ok_bind, hfold, ok_bind]
        simp only [List.nil_append, hpos0]
        show (if ((eqPairsOf rest).foldl (fun acc p => appendKw acc p.1 p.2) []).any
              (fun p => p.1 == "self") = true
            then Except.error "TypeError: multiple values for argument"
            else Except.ok (Src.bugzilla
              ((eqPairsOf rest).foldl (fun acc p => appendKw acc p.1 p.2) []))) =
          Except.ok (Src.bugzilla
            ((eqPairsOf rest).foldl (fun acc p => appendKw acc p.1 p.2) []))
        rw [if_neg (by rw [hanyb]; exact Bool.false_ne_true)]
      · rw [srcPositionals, hsegs, hpos0]
      · intro k
        rw [srcFilters]
        exact hlookups k

/-- Witness for C3: `github:acme:widgets:state=open:state=closed` yields a
Github source with `user=acme`, `repo=widgets`, and the filter `state`
mapped to `[open, closed]` in order. -/
theorem parse_source_valid_config_witness :
    validDef "github:acme:widgets:state=open:state=closed" = true ∧
    ∃ src, parse_source "github:acme:widgets:state=open:state=closed" =
        .ok src ∧
      srcPositionals src =
        posSegs (defSegs "github:acme:widgets:state=open:state=closed") ∧
      ∀ k, alookupS (srcFilters src) k =
        (if FilterVals (defSegs "github:acme:widgets:state=open:state=closed") k = []
         then none
         else some (FilterVals
           (defSegs "github:acme:widgets:state=open:state=closed") k)) :=
  ⟨by decide,
   parse_source_valid_config "github:acme:widgets:state=open:state=closed"
     (by decide)⟩

/-! ## Link-header parsing lemmas -/

theorem splitChars_append_sep (sep : Char) :
    ∀ {a : List Char} (b : List Char), sep ∉ a →
      splitChars sep (a ++ sep :: b) = a :: splitChars sep b := by
  intro a
  induction a with
  | nil =>
    intro b _
    rw [List.nil_append]
    cases h : splitChars sep b with
    | nil => exact absurd h (splitChars_ne_nil sep b)
    | cons chunk rest =>
      rw [splitChars_cons_cons sep sep b chunk rest h, if_pos rfl]
  | cons c a' ih =>
    intro b ha
    have hc : c ≠ sep := fun he => ha (he ▸ List.mem_cons_self c a')
    have ha' : sep ∉ a' := fun hm => ha (List.mem_cons_of_mem c hm)
    rw [List.cons_append]
    cases h : splitChars sep (a' ++ sep :: b) with
    | nil => exact absurd h (splitChars_ne_nil sep (a' ++ sep :: b))
    | cons chunk rest =>
      rw [splitChars_cons_cons sep c (a' ++ sep :: b) chunk rest h, if_neg hc]
      rw [ih b ha'] at h
      injection h with h1 h2
      rw [h1, h2]

theorem splitChars_intercalate (sep : Char) :
    ∀ (chunks : List (List Char)), chunks ≠ [] →
      (∀ ch ∈ chunks, sep ∉ ch) →
      splitChars sep (intercalateChar sep chunks) = chunks := by
  intro chunks
  induction chunks with
  | nil => exact fun h _ => absurd rfl h
  | cons x chunks ih =>
    intro _ hall
    cases chunks with
    | nil =>
      exact splitChars_no_sep sep (hall x (List.mem_cons_self x []))
    | cons y chunks' =>
      rw [show intercalateChar sep (x :: y :: chunks') =
          x ++ sep :: intercalateChar sep (y :: chunks') from rfl]
      rw [splitChars_append_sep sep (intercalateChar sep (y :: chunks'))
        (hall x (List.mem_cons_self x (y :: chunks')))]
      rw [ih (by simp) (fun ch hch => hall ch (List.mem_cons_of_mem x hch))]

theorem pystrip_sandwich (c₁ c₂ : Char) (mid : List Char)
    (h1 : isWs c₁ = false) (h2 : isWs c₂ = false) :
    pystrip (c₁ :: (mid ++ [c₂])) = c₁ :: (mid ++ [c₂]) := by
  unfold pystrip
  rw [List.dropWhile_cons, h1]
  simp only [Bool.false_eq_true, if_false]
  rw [show (c₁ :: (mid ++ [c₂])).reverse = c₂ :: (mid.reverse ++ [c₁]) by simp]
  rw [List.dropWhile_cons, h2]
  simp

theorem pystrip_cons_ws {c : Char} {l : List Char} (h : isWs c = true) :
    pystrip (c :: l) = pystrip l := by
  unfold pystrip
  rw [List.dropWhile_cons, h]
  simp

theorem stripSet_angle {u : List Char} (hu : CleanSeg u) :
    stripSet ['<', '>'] ('<' :: (u ++ ['>'])) = u := by
  obtain ⟨hne, hclean⟩ := hu
  have hnotangle : ∀ x ∈ u, ((['<', '>'] : List Char).contains x) = false := by
    intro x hx
    have hcl := hclean x hx
    simp only [cleanChar, Bool.and_eq_true, Bool.not_eq_true',
      beq_eq_false_iff_ne] at hcl
    simp [hcl.1.1.2, hcl.1.2]
  cases u with
  | nil => exact absurd rfl hne
  | cons c u' =>
    have hc := hnotangle c (List.mem_cons_self c u')
    unfold stripSet
    rw [List.cons_append]
    rw [show List.dropWhile (['<', '>'] : List Char).contains
        ('<' :: (c :: (u' ++ ['>']))) =
        List.dropWhile (['<', '>'] : List Char).contains (c :: (u' ++ ['>']))
      from rfl]
    rw [List.dropWhile_cons, hc]
    simp only [Bool.false_eq_true, if_false]
    rw [show (c :: (u' ++ ['>'])).reverse = '>' :: (u'.reverse ++ [c]) by simp]
    rw [show List.dropWhile (['<', '>'] : List Char).contains
        ('>' :: (u'.reverse ++ [c])) =
        List.dropWhile (['<', '>'] : List Char).contains (u'.reverse ++ [c])
      from rfl]
    have hY : List.dropWhile (['<', '>'] : List Char).contains
        (u'.reverse ++ [c]) = u'.reverse ++ [c] := by
      cases hrev : u'.reverse with
      | nil =>
        rw [List.nil_append, List.dropWhile_cons, hc]
        simp
      | cons d t =>
        have hd : d ∈ u' := by
          have hmem : d ∈ u'.reverse := by
            rw [hrev]
            exact List.mem_cons_self d t
          simpa using hmem
        rw [List.cons_append, List.dropWhile_cons, hnotangle d
          (List.mem_cons_of_mem c hd)]
        simp
    rw [hY]
    simp

theorem cleanSeg_not_mem {l : List Char} (h : CleanSeg l) {x : Char}
    (hx : x ∈ l) : x ≠ ',' ∧ x ≠ ';' ∧ x ≠ '<' ∧ x ≠ '>' ∧ isWs x = false := by
  have hcl := h.2 x hx
  simp only [cleanChar, Bool.and_eq_true, Bool.not_eq_true',
    beq_eq_false_iff_ne] at hcl
  exact ⟨hcl.1.1.1.1, hcl.1.1.1.2, hcl.1.1.2, hcl.1.2, hcl.2⟩

theorem renderEntry_no_semi_left {p : List Char × List Char}
    (hu : CleanSeg p.1) : ';' ∉ '<' :: (p.1 ++ ['>']) := by
  intro hm
  simp only [List.mem_cons, List.mem_append, List.mem_singleton] at hm
  rcases hm with h | h | h
  · exact absurd h (by decide)
  · exact absurd rfl (cleanSeg_not_mem hu h).2.1
  · exact absurd h (by decide)

theorem renderEntry_no_semi_right {p : List Char × List Char}
    (hr : CleanSeg p.2) :
    ';' ∉ ' ' :: ("rel=\"".data ++ (p.2 ++ ['"'])) := by
  intro hm
  simp only [List.mem_cons, List.mem_append, List.mem_singleton,
    show ("rel=\"".data : List Char) = ['r', 'e', 'l', '=', '"'] from rfl] at hm
  rcases hm with h | h | h | h
  · exact absurd h (by decide)
  · rcases h with h | h | h | h | h <;> exact absurd h (by decide)
  · exact absurd rfl ((cleanSeg_not_mem hr h).2.1)
  · exact absurd h (by decide)

theorem renderEntry_no_comma {p : List Char × List Char}
    (hu : CleanSeg p.1) (hr : CleanSeg p.2) : ',' ∉ renderEntry p := by
  intro hm
  simp only [renderEntry, List.mem_cons, List.mem_append, List.mem_singleton,
    show ("rel=\"".data : List Char) = ['r', 'e', 'l', '=', '"'] from rfl] at hm
  rcases hm with h | h | h | h | h | h | h | h
  · exact absurd h (by decide)
  · exact absurd rfl ((cleanSeg_not_mem hu h).1)
  · exact absurd h (by decide)
  · exact absurd h (by decide)
  · exact absurd h (by decide)
  · rcases h with h | h | h | h | h <;> exact absurd h (by decide)
  · exact absurd rfl ((cleanSeg_not_mem hr h).1)
  · exact absurd h (by decide)

/-- Processing one rendered `Link` entry: strip, split on `";"`, strip the
two pieces. -/
theorem linkEntry_pieces {p : List Char × List Char}
    (hu : CleanSeg p.1) (hr : CleanSeg p.2) :
    (splitChars ';' (pystrip (renderEntry p))).map pystrip =
      ['<' :: (p.1 ++ ['>']), "rel=\"".data ++ (p.2 ++ ['"'])] := by
  have hsand : pystrip (renderEntry p) = renderEntry p := by
    rw [show renderEntry p =
        '<' :: ((p.1 ++ '>' :: ';' :: ' ' :: ("rel=\"".data ++ p.2)) ++ ['"'])
      by simp [renderEntry]]
    exact pystrip_sandwich '<' '"'
      (p.1 ++ '>' :: ';' :: ' ' :: ("rel=\"".data ++ p.2)) rfl rfl
  rw [hsand]
  rw [show renderEntry p =
      ('<' :: (p.1 ++ ['>'])) ++
        ';' :: (' ' :: ("rel=\"".data ++ (p.2 ++ ['"'])))
    by simp [renderEntry]]
  rw [splitChars_append_sep ';'
    (' ' :: ("rel=\"".data ++ (p.2 ++ ['"']))) (renderEntry_no_semi_left hu)]
  rw [splitChars_no_sep ';' (renderEntry_no_semi_right hr)]
  rw [List.map_cons, List.map_cons, List.map_nil]
  rw [show pystrip ('<' :: (p.1 ++ ['>'])) = '<' :: (p.1 ++ ['>']) from
    pystrip_sandwich '<' '>' p.1 rfl rfl]
  rw [pystrip_cons_ws (show isWs ' ' = true from rfl)]
  rw [show ("rel=\"".data ++ (p.2 ++ ['"'])) =
      'r' :: ((['e', 'l', '=', '"'] ++ p.2) ++ ['"']) by simp]
  rw [pystrip_sandwich 'r' '"' (['e', 'l', '=', '"'] ++ p.2) rfl rfl]

theorem mapM_entries :
    ∀ (es : List (List Char × List Char)), EntriesClean es →
      (es.map renderEntry).mapM (fun l =>
        match (splitChars ';' (pystrip l)).map pystrip with
        | [a, b] => Except.ok (b, a)
        | _ => Except.error "ValueError: dictionary update sequence") =
        .ok (es.map (fun p =>
          ("rel=\"".data ++ (p.2 ++ ['"']), '<' :: (p.1 ++ ['>'])))) := by
  intro es
  induction es with
  | nil =>
    intro _
    rfl
  | cons p es ih =>
    intro hclean
    have hp := hclean p (List.mem_cons_self p es)
    simp only [List.map_cons, List.mapM_cons, linkEntry_pieces hp.1 hp.2,
      ih (fun q hq => hclean q (List.mem_cons_of_mem p hq)), ok_bind]
    rfl

/-- `linkPairs` on a well-formed multi-entry header: one (relation, url)
dict item per entry. -/
theorem linkPairs_renderHeader (es : List (List Char × List Char))
    (hne : es ≠ []) (hclean : EntriesClean es) :
    linkPairs (renderHeader es) =
      .ok (es.map (fun p =>
        ("rel=\"".data ++ (p.2 ++ ['"']), '<' :: (p.1 ++ ['>'])))) := by
  unfold linkPairs renderHeader
  rw [splitChars_intercalate ',' (es.map renderEntry)
    (by simpa using hne)
    (fun ch hch => by
      obtain ⟨p, hp, rfl⟩ := List.mem_map.mp hch
      exact renderEntry_no_comma (hclean p hp).1 (hclean p hp).2)]
  exact mapM_entries es hclean

theorem relKey_iff {r : List Char} :
    ("rel=\"".data ++ (r ++ ['"'])) = relNextKey ↔ r = "next".data := by
  constructor
  · intro h
    have h2 : ("rel=\"".data ++ (r ++ ['"'])) =
        ("rel=\"".data ++ ("next".data ++ ['"'])) := by
      rw [h]
      rfl
    have h3 := List.append_cancel_left h2
    exact List.append_cancel_right h3
  · rintro rfl
    rfl

theorem lookupLast_entries :
    ∀ (es : List (List Char × List Char)) (acc : Option (List Char)),
      (es.map (fun p =>
        ("rel=\"".data ++ (p.2 ++ ['"']), '<' :: (p.1 ++ ['>'])))).foldl
          (fun a q => if q.1 = relNextKey then some q.2 else a)
          (acc.map (fun u => '<' :: (u ++ ['>']))) =
        (es.foldl (fun a p => if p.2 = "next".data then some p.1 else a)
          acc).map (fun u => '<' :: (u ++ ['>'])) := by
  intro es
  induction es with
  | nil =>
    intro acc
    rfl
  | cons p es ih =>
    intro acc
    rw [List.map_cons, List.foldl_cons, List.foldl_cons]
    by_cases hp : p.2 = "next".data
    · rw [if_pos (relKey_iff.mpr hp), if_pos hp]
      exact ih (some p.1)
    · rw [if_neg (fun h => hp (relKey_iff.mp h)), if_neg hp]
      exact ih acc

theorem lookupLast_lastRelNext (es : List (List Char × List Char)) :
    lookupLast (es.map (fun p =>
        ("rel=\"".data ++ (p.2 ++ ['"']), '<' :: (p.1 ++ ['>'])))) relNextKey =
      (lastRelNext es).map (fun u => '<' :: (u ++ ['>'])) := by
  have h := lookupLast_entries es none
  simpa [lookupLast, lastRelNext] using h

theorem lastRelNext_mem :
    ∀ (es : List (List Char × List Char)) (acc : Option (List Char))
      (u : List Char),
      es.foldl (fun a p => if p.2 = "next".data then some p.1 else a) acc =
        some u →
      (∃ p ∈ es, p.1 = u) ∨ acc = some u := by
  intro es
  induction es with
  | nil =>
    intro acc u h
    exact Or.inr h
  | cons p es ih =>
    intro acc u h
    rw [List.foldl_cons] at h
    by_cases hp : p.2 = "next".data
    · rw [if_pos hp] at h
      rcases ih (some p.1) u h with ⟨q, hq, hqu⟩ | hacc
      · exact Or.inl ⟨q, List.mem_cons_of_mem p hq, hqu⟩
      · exact Or.inl ⟨p, List.mem_cons_self p es, by injection hacc⟩
    · rw [if_neg hp] at h
      rcases ih acc u h with ⟨q, hq, hqu⟩ | hacc
      · exact Or.inl ⟨q, List.mem_cons_of_mem p hq, hqu⟩
      · exact Or.inr hacc

/-- The absent-header default `";"` parses to the empty next-URL. -/
theorem parseNextHeader_none : parseNextHeader none = .ok [] := rfl

theorem parseNextHeader_some_next {es : List (List Char × List Char)}
    {u : List Char} (hne : es ≠ []) (hclean : EntriesClean es)
    (hlast : lastRelNext es = some u) :
    parseNextHeader (some (renderHeader es)) = .ok u := by
  have hu : CleanSeg u := by
    rcases lastRelNext_mem es none u hlast with ⟨p, hp, hpu⟩ | habs
    · exact hpu ▸ (hclean p hp).1
    · cases habs
  unfold parseNextHeader
  rw [show (some (renderHeader es)).getD [';'] = renderHeader es from rfl]
  rw [linkPairs_renderHeader es hne hclean]
  show Except.ok (stripSet ['<', '>']
    ((lookupLast (es.map (fun p =>
      ("rel=\"".data ++ (p.2 ++ ['"']), '<' :: (p.1 ++ ['>'])))) relNextKey).getD [])) =
    Except.ok u
  rw [lookupLast_lastRelNext, hlast]
  show Except.ok (stripSet ['<', '>'] ('<' :: (u ++ ['>']))) = Except.ok u
  rw [stripSet_angle hu]

theorem parseNextHeader_no_next {es : List (List Char × List Char)}
    (hne : es ≠ []) (hclean : EntriesClean es)
    (hlast : lastRelNext es = none) :
    parseNextHeader (some (renderHeader es)) = .ok [] := by
  unfold parseNextHeader
  rw [show (some (renderHeader es)).getD [';'] = renderHeader es from rfl]
  rw [linkPairs_renderHeader es hne hclean]
  show Except.ok (stripSet ['<', '>']
    ((lookupLast (es.map (fun p =>
      ("rel=\"".data ++ (p.2 ++ ['"']), '<' :: (p.1 ++ ['>'])))) relNextKey).getD [])) =
    Except.ok []
  rw [lookupLast_lastRelNext, hlast]
  rfl

/-- A response with no `Link` header, or a well-formed one lacking a
`rel="next"` entry, parses to the empty next-URL. -/
theorem noNextResp_parse {r : GhResponse} (h : NoNextResp r) :
    parseNextHeader r.linkHeader = .ok [] := by
  rcases h with h | ⟨es, hh, hne, hclean, hlast⟩
  · rw [h]
    exact parseNextHeader_none
  · rw [hh]
    exact parseNextHeader_no_next hne hclean hlast

/-- One iteration of the `while url:` loop with a successful fetch and
header parse. -/
theorem getIssuesLoop_step (fetch : List Char → Option GhResponse)
    (fuel : Nat) (u : List Char) (r : GhResponse) (nxt : List Char)
    (rest : List Json) (hu : u ≠ []) (hf : fetch u = some r)
    (hparse : parseNextHeader r.linkHeader = .ok nxt)
    (hrec : getIssuesLoop fetch fuel nxt = .ok rest) :
    getIssuesLoop fetch (fuel + 1) u = .ok (r.bodies ++ rest) := by
  simp only [getIssuesLoop, if_neg hu, hf, hparse, hrec]

theorem getIssuesLoop_nil (fetch : List Char → Option GhResponse)
    (fuel : Nat) : getIssuesLoop fetch fuel [] = .ok [] := by
  cases fuel <;> simp [getIssuesLoop]

/-- C4: For every finite chain of mock responses in which response `k`'s
`Link` header carries a `rel="next"` entry pointing at response `k+1`'s
url and the final response has no `Link` header or no `rel="next"` entry,
`Github.get_issues` yields exactly the concatenation of all pages' issues,
in page order, and terminates (one loop iteration per page suffices). -/
theorem github_pagination_chain (fetch : List Char → Option GhResponse) :
    ∀ (us : List (List Char)) (rs : List GhResponse) (u : List Char)
      (r : GhResponse),
      FollowChain fetch (u :: us) (r :: rs) →
      getIssuesLoop fetch (us.length + 1) u =
        .ok (((r :: rs).map GhResponse.bodies).flatten) := by
  intro us
  induction us with
  | nil =>
    intro rs u r h
    cases rs with
    | nil =>
      obtain ⟨hu, hf, hnn⟩ := h
      have hstep := getIssuesLoop_step fetch 0 u r [] [] hu hf
        (noNextResp_parse hnn) (getIssuesLoop_nil fetch 0)
      simp only [List.length_nil]
      rw [hstep]
      simp
    | cons r' rs' =>
      simp [FollowChain] at h
  | cons u' us ih =>
    intro rs u r h
    cases rs with
    | nil =>
      obtain ⟨_, _, _, hchain⟩ := h
      cases us <;> simp [FollowChain] at hchain
    | cons r' rs' =>
      obtain ⟨hu, hf, hnext, hchain⟩ := h
      obtain ⟨es, hh, hne, hclean, hlast⟩ := hnext
      have hparse : parseNextHeader r.linkHeader = .ok u' := by
        rw [hh]
        exact parseNextHeader_some_next hne hclean hlast
      have hrec := ih rs' u' r' hchain
      have hstep := getIssuesLoop_step fetch (us.length + 1) u r u'
        (((r' :: rs').map GhResponse.bodies).flatten) hu hf hparse hrec
      rw [show (u' :: us).length + 1 = (us.length + 1) + 1 by simp]
      rw [hstep]
      simp

/-- Witness for C4: a two-page chain; page one's header points at page
two, page two has no header; the loop yields both pages' issues in
order. -/
theorem github_pagination_chain_witness :
    FollowChain
      (fun u => if u = "A".data then
          some ⟨[Json.i 1, Json.i 2], some ("<B>; rel=\"next\"".data)⟩
        else if u = "B".data then some ⟨[Json.i 3], none⟩ else none)
      ["A".data, "B".data]
      [⟨[Json.i 1, Json.i 2], some ("<B>; rel=\"next\"".data)⟩,
       ⟨[Json.i 3], none⟩] ∧
    getIssuesLoop
      (fun u => if u = "A".data then
          some ⟨[Json.i 1, Json.i 2], some ("<B>; rel=\"next\"".data)⟩
        else if u = "B".data then some ⟨[Json.i 3], none⟩ else none)
      (["B".data].length + 1) "A".data =
      .ok ((([⟨[Json.i 1, Json.i 2], some ("<B>; rel=\"next\"".data)⟩,
        ⟨[Json.i 3], none⟩] : List GhResponse).map GhResponse.bodies).flatten) := by
  have hchain : FollowChain
      (fun u => if u = "A".data then
          some ⟨[Json.i 1, Json.i 2], some ("<B>; rel=\"next\"".data)⟩
        else if u = "B".data then some ⟨[Json.i 3], none⟩ else none)
      ["A".data, "B".data]
      [⟨[Json.i 1, Json.i 2], some ("<B>; rel=\"next\"".data)⟩,
       ⟨[Json.i 3], none⟩] :=
    ⟨by decide, rfl,
     ⟨[("B".data, "next".data)], by decide, by decide,
      by unfold EntriesClean CleanSeg; decide, by decide⟩,
     by decide, rfl, Or.inl rfl⟩
  exact ⟨hchain, github_pagination_chain _ ["B".data] _ "A".data _ hchain⟩

/-- Counterexample for C5: a malformed `Link` header whose comma-part
contains no `";"` (here the header `foo`) makes the header-parsing step
raise ValueError instead of stopping pagination silently. -/
theorem github_malformed_header_raises :
    getIssuesLoop (fun _ => some ⟨[], some ("foo".data)⟩) 1 ("x".data) =
      .error "ValueError: dictionary update sequence" := rfl

/-- C5 amended: a response whose `Link` header is absent, or is a
well-formed comma-separated `<url>; rel="name"` list with no `rel="next"`
entry, is treated as "no next page": pagination stops silently after that
page's issues are yielded.  (A comma-part that does not split on `";"`
into exactly two pieces instead raises ValueError in the dict-building
step — see the counterexample.) -/
theorem github_pagination_no_next_stops
    (fetch : List Char → Option GhResponse) (u : List Char)
    (r : GhResponse) (fuel : Nat) (hu : u ≠ []) (hf : fetch u = some r)
    (h : NoNextResp r) :
    getIssuesLoop fetch (fuel + 1) u = .ok r.bodies := by
  have hstep := getIssuesLoop_step fetch fuel u r [] [] hu hf
    (noNextResp_parse h) (getIssuesLoop_nil fetch fuel)
  simpa using hstep

/-- Witness for C5's amended statement at a header-free response. -/
theorem github_pagination_no_next_stops_witness :
    ("x".data ≠ []) ∧
    (fun _ : List Char => some (⟨[Json.i 5], none⟩ : GhResponse)) "x".data =
      some ⟨[Json.i 5], none⟩ ∧
    NoNextResp ⟨[Json.i 5], none⟩ ∧
    getIssuesLoop (fun _ => some ⟨[Json.i 5], none⟩) 1 "x".data =
      .ok [Json.i 5] :=
  ⟨by decide, rfl, Or.inl rfl,
   github_pagination_no_next_stops _ _ _ 0 (by decide) rfl (Or.inl rfl)⟩

end Bughub
